import Mathlib

/-!
# Composite trapezoidal rule (`cnumerico/integracao.cpp`)

A shallow embedding of `integrar_por_trapezios` and of the driver `main`.

The source computes over `double`; here the arithmetic is exact, over an
arbitrary linearly ordered field `K` (so the results hold over the reals, and
the definitions evaluate over the rationals).  The `int` subdivision count `p`
and the `int` loop counter `i` are unbounded integers, converted to `K` exactly
where the source converts them to `double` (`(b - a) / p` and `i*h`).  Division
is the field's total division (`x / 0 = 0`), except in the guarded variant.
A second copy of the loop, `somaLoop32`, keeps the counter in 32 bits; it is
shown to agree with the loop over unbounded integers for every `int` value of
`p`.

A third copy, `integrar_por_trapezios_double`, computes as the source does, in
IEEE 754 binary64 (`Dbl`): it is where the statements that hold in exact
arithmetic only are told from those that hold of the rounded results.
-/

namespace CNumerico

variable {K : Type*} [LinearOrderedField K]

/-! ## The loop

    for (int i = 1; i < p; i++) {
        soma += f(a + i*h);
    }
-/

/-- State of the `for` loop entered with counter `i` and accumulator `soma`:
the value of `soma` when the loop exits. -/
def somaLoop (f : K → K) (a h : K) (p : Int) (i : Int) (soma : K) : K :=
  if i < p then somaLoop f a h p (i + 1) (soma + f (a + (i : K) * h)) else soma
termination_by (p - i).toNat
decreasing_by omega

/-- The function `integrar_por_trapezios(f, a, b, p = 1)`. -/
def integrar_por_trapezios (f : K → K) (a b : K) (p : Int := 1) : K :=
  let h := (b - a) / (p : K)
  let soma := somaLoop f a h p 1 0
  (f a + 2 * soma + f b) * h / 2

/-- The value `r` that `main` computes and prints:
`integrar_por_trapezios(f, 0, 4, 100000000)` with `f(x) = pow(x, 2)`. -/
def main_r : K :=
  integrar_por_trapezios (fun x : K => x ^ 2) 0 4 100000000

/-! ## The partition the rule is named after -/

/-- Sample point `x_i = a + i*h` of the partition of `[a, b]` into `p` equal
subintervals, `h = (b - a) / p`. -/
def ponto (a b : K) (p : Int) (i : ℕ) : K :=
  a + (i : K) * ((b - a) / (p : K))

/-- The rule as the glossary words it: the sum, over the `p` subintervals
`i = 0 .. p-1`, of the area `(f(x_i) + f(x_{i+1})) * h / 2` of the trapezoid
between the consecutive sample points `x_i` and `x_{i+1}`. -/
def soma_das_areas (f : K → K) (a b : K) (p : Int) : K :=
  ∑ i in Finset.range p.toNat,
    (f (ponto a b p i) + f (ponto a b p (i + 1))) * ((b - a) / (p : K)) / 2

/-! ## Instrumented run: the calls made to the integrand -/

/-- The `for` loop, recording in `calls` the argument of every invocation of
`f`, in the order the invocations happen. -/
def somaLoopCalls (f : K → K) (a h : K) (p : Int) (i : Int) (soma : K)
    (calls : List K) : K × List K :=
  if i < p then
    somaLoopCalls f a h p (i + 1) (soma + f (a + (i : K) * h)) (calls ++ [a + (i : K) * h])
  else (soma, calls)
termination_by (p - i).toNat
decreasing_by omega

/-- One call of `integrar_por_trapezios`, returning the result together with
the arguments of all invocations of `f`: those of the loop, then the two of the
`return` expression (`f(a)`, `f(b)`; the source leaves their relative order to
the compiler, here `f(a)` is first). -/
def integrar_por_trapezios_calls (f : K → K) (a b : K) (p : Int := 1) : K × List K :=
  let h := (b - a) / (p : K)
  let r := somaLoopCalls f a h p 1 0 []
  ((f a + 2 * r.1 + f b) * h / 2, r.2 ++ [a, b])

/-! ## Guarded division -/

/-- Division that fails on a zero divisor instead of producing a value. -/
def divGuarded (x y : K) : Option K :=
  if y = 0 then none else some (x / y)

/-- The function `integrar_por_trapezios` with both of its divisions
(`(b - a) / p` and `... / 2`) guarded; everything else is as in the source. -/
def integrar_por_trapezios_guarded (f : K → K) (a b : K) (p : Int := 1) : Option K := do
  let h ← divGuarded (b - a) (p : K)
  let soma := somaLoop f a h p 1 0
  divGuarded ((f a + 2 * soma + f b) * h) 2

/-! ## The 32-bit counter -/

/-- Largest value of the type `int` (32 bits, two's complement). -/
def INT_MAX : Int := 2 ^ 31 - 1

/-- Smallest value of the type `int`. -/
def INT_MIN : Int := -(2 ^ 31)

/-- Reduction of an integer to the range of `int`, as a wrapping increment
would do it. -/
def wrap32 (x : Int) : Int :=
  (x + 2 ^ 31) % 2 ^ 32 - 2 ^ 31

/-- The `for` loop with a 32-bit counter: `i++` is `wrap32 (i + 1)`.  `fuel`
bounds the number of iterations; the run is `none` when the loop wants one
more.  Otherwise it is the final `soma` together with the values the counter
took, in order, the last one being the value at which the test `i < p` fails. -/
def somaLoop32 (f : K → K) (a h : K) (p : Int) :
    ℕ → Int → K → List Int → Option (K × List Int)
  | 0, i, soma, vals => if i < p then none else some (soma, vals ++ [i])
  | fuel + 1, i, soma, vals =>
    if i < p then
      somaLoop32 f a h p fuel (wrap32 (i + 1)) (soma + f (a + (i : K) * h)) (vals ++ [i])
    else some (soma, vals ++ [i])

/-! ## Binary64 arithmetic

The source computes in `double`.  The definitions below are IEEE 754 binary64
with the default rounding (to nearest, ties to even), signed zeros, infinities
and NaN, for the operations the function uses.  Every operation rounds on its
own: no fused multiply-add, no wider intermediate format. -/

/-- Number of binary digits of `n` (`0` for `n = 0`), by halving at most `fuel`
times. -/
def bitLen : ℕ → ℕ → ℕ
  | 0, _ => 0
  | fuel + 1, n => if n = 0 then 0 else bitLen fuel (n / 2) + 1

/-- A value of type `double`.  `fin neg m e` is `(-1)^neg * m * 2^e`, kept with
`m < 2^53` and `-1074 ≤ e ≤ 971`, and with `2^52 ≤ m` unless `e = -1074`
(zeros and subnormal values). -/
inductive Dbl
  | fin (neg : Bool) (m : ℕ) (e : Int)
  | inf (neg : Bool)
  | nan
  deriving DecidableEq

namespace Dbl

/-- The zero of the given sign. -/
def zero (neg : Bool) : Dbl := fin neg 0 (-1074)

/-- The `double` nearest to `(-1)^neg * (n / d) * 2^x` (`d > 0`), ties going to
the even significand; an infinity from `(2^53 - 1/2) * 2^971` on. -/
def round (neg : Bool) (n d : ℕ) (x : Int) : Dbl :=
  if n = 0 then zero neg else
    let e0 : Int := (bitLen n n : Int) - (bitLen d d : Int) - 53 + x
    let e1 : Int := max e0 (-1074)
    let num : ℕ := n * 2 ^ (x - e1).toNat
    let den : ℕ := d * 2 ^ (e1 - x).toNat
    let big : Bool := decide (2 ^ 53 ≤ num / den)
    let e2 : Int := if big then e1 + 1 else e1
    let den2 : ℕ := if big then 2 * den else den
    let q : ℕ := num / den2
    let r : ℕ := num % den2
    let up : Bool := decide (den2 < 2 * r) || (decide (2 * r = den2) && decide (q % 2 = 1))
    let m : ℕ := if up then q + 1 else q
    let carry : Bool := decide (m = 2 ^ 53)
    let m3 : ℕ := if carry then 2 ^ 52 else m
    let e3 : Int := if carry then e2 + 1 else e2
    if 971 < e3 then inf neg else fin neg m3 e3

/-- Conversion of an `int` to `double`. -/
def ofInt (i : Int) : Dbl :=
  round (decide (i < 0)) i.natAbs 1 0

/-- Unary minus. -/
def neg : Dbl → Dbl
  | fin s m e => fin (!s) m e
  | inf s => inf (!s)
  | nan => nan

/-- Addition of `double`s. -/
def add : Dbl → Dbl → Dbl
  | nan, _ => nan
  | _, nan => nan
  | inf s, inf t => if s = t then inf s else nan
  | inf s, fin _ _ _ => inf s
  | fin _ _ _, inf t => inf t
  | fin s m e, fin t k j =>
    if m = 0 then (if k = 0 then zero (s && t) else fin t k j)
    else if k = 0 then fin s m e
    else
      let c : Int := min e j
      let u : Int := (if s then -1 else 1) * ((m * 2 ^ (e - c).toNat : ℕ) : Int)
      let v : Int := (if t then -1 else 1) * ((k * 2 ^ (j - c).toNat : ℕ) : Int)
      if u + v = 0 then zero false else round (decide (u + v < 0)) (u + v).natAbs 1 c

/-- Subtraction of `double`s. -/
def sub (x y : Dbl) : Dbl := add x (neg y)

/-- Multiplication of `double`s. -/
def mul : Dbl → Dbl → Dbl
  | nan, _ => nan
  | _, nan => nan
  | inf s, inf t => inf (xor s t)
  | inf s, fin t k _ => if k = 0 then nan else inf (xor s t)
  | fin s m _, inf t => if m = 0 then nan else inf (xor s t)
  | fin s m e, fin t k j => round (xor s t) (m * k) 1 (e + j)

/-- Division of `double`s. -/
def div : Dbl → Dbl → Dbl
  | nan, _ => nan
  | _, nan => nan
  | inf _, inf _ => nan
  | inf s, fin t _ _ => inf (xor s t)
  | fin s _ _, inf t => zero (xor s t)
  | fin s m e, fin t k j =>
    if k = 0 then (if m = 0 then nan else inf (xor s t))
    else round (xor s t) m k (e - j)

/-- The comparison `x <= y` of `double`s (false when either is NaN). -/
def le : Dbl → Dbl → Bool
  | nan, _ => false
  | _, nan => false
  | inf s, inf t => s || !t
  | inf s, fin _ _ _ => s
  | fin _ _ _, inf t => !t
  | fin s m e, fin t k j =>
    let c : Int := min e j
    let u : Int := (if s then -1 else 1) * ((m * 2 ^ (e - c).toNat : ℕ) : Int)
    let v : Int := (if t then -1 else 1) * ((k * 2 ^ (j - c).toNat : ℕ) : Int)
    decide (u ≤ v)

end Dbl

/-! ## The function in `double` -/

/-- The `for` loop of the source, every operation in `double`: the counter is
converted for `i*h`, and `soma += f(a + i*h)` rounds twice on the way to the
argument and once in the sum. -/
def somaLoopDouble (f : Dbl → Dbl) (a h : Dbl) (p : Int) (i : Int) (soma : Dbl) : Dbl :=
  if i < p then
    somaLoopDouble f a h p (i + 1) (Dbl.add soma (f (Dbl.add a (Dbl.mul (Dbl.ofInt i) h))))
  else soma
termination_by (p - i).toNat
decreasing_by omega

/-- The function `integrar_por_trapezios(f, a, b, p = 1)` as the source computes
it, in `double`: `h = (b - a) / p`, then
`(((f(a) + 2*soma) + f(b)) * h) / 2`. -/
def integrar_por_trapezios_double (f : Dbl → Dbl) (a b : Dbl) (p : Int := 1) : Dbl :=
  let h := Dbl.div (Dbl.sub b a) (Dbl.ofInt p)
  let soma := somaLoopDouble f a h p 1 (Dbl.ofInt 0)
  Dbl.div (Dbl.mul (Dbl.add (Dbl.add (f a) (Dbl.mul (Dbl.ofInt 2) soma)) (f b)) h) (Dbl.ofInt 2)

/-! ## The loop in closed form -/

open Finset

theorem somaLoop_exit (f : K → K) (a h : K) (p i : Int) (soma : K) (hip : p ≤ i) :
    somaLoop f a h p i soma = soma := by
  rw [somaLoop, if_neg (not_lt.mpr hip)]

theorem somaLoop_step (f : K → K) (a h : K) (p i : Int) (soma : K) (hip : i < p) :
    somaLoop f a h p i soma = somaLoop f a h p (i + 1) (soma + f (a + (i : K) * h)) := by
  rw [somaLoop, if_pos hip]

/-- Entered `n` iterations before its exit, the loop adds the `n` values
`f(a + (i + k)*h)`, `k = 0 .. n-1`, to the accumulator. -/
theorem somaLoop_eq_sum (f : K → K) (a h : K) (p : Int) (n : ℕ) :
    ∀ (i : Int) (soma : K), p = i + n →
      somaLoop f a h p i soma = soma + ∑ k in range n, f (a + ((i : K) + k) * h) := by
  induction n with
  | zero =>
    intro i soma hp
    rw [somaLoop_exit f a h p i soma (by simp at hp; omega)]
    simp
  | succ n ih =>
    intro i soma hp
    rw [somaLoop_step f a h p i soma (by push_cast at hp; omega),
      ih (i + 1) _ (by push_cast at hp; omega), sum_range_succ', add_assoc]
    congr 1
    rw [add_comm]
    congr 1
    · apply sum_congr rfl
      intro k _
      push_cast
      ring_nf
    · simp

/-- The result for `p = n + 1` subintervals, the interior sum indexed from 0. -/
theorem trapezios_succ (f : K → K) (a b : K) (n : ℕ) :
    integrar_por_trapezios f a b ((n : Int) + 1) =
      (f a + 2 * (∑ k in range n, f (a + ((k : K) + 1) * ((b - a) / ((n : K) + 1)))) + f b)
        * ((b - a) / ((n : K) + 1)) / 2 := by
  simp only [integrar_por_trapezios]
  rw [somaLoop_eq_sum f a _ _ n 1 0 (by omega)]
  push_cast
  simp only [zero_add, add_comm (1 : K)]

/-- A sum over the integers `1 .. n` as a sum over `range n`. -/
theorem sum_Icc_one_eq_sum_range (g : Int → K) (n : ℕ) :
    ∑ i in Icc (1 : Int) n, g i = ∑ k in range n, g ((k : Int) + 1) := by
  rw [Int.Icc_eq_finset_map, sum_map]
  have hn : ((n : Int) + 1 - 1).toNat = n := by omega
  rw [hn]
  apply sum_congr rfl
  intro k _
  simp [add_comm]

theorem exists_succ_of_one_le (p : Int) (hp : 1 ≤ p) : ∃ n : ℕ, p = (n : Int) + 1 :=
  ⟨(p - 1).toNat, by omega⟩

/-! ## The rule, as specified -/

/-- C1: for `p ≥ 1` the result is `(f(a) + 2*S + f(b)) * h / 2`, with
`h = (b - a) / p` and `S` the sum of `f(a + i*h)` over `i = 1 .. p-1`. -/
theorem trapezios_formula (f : K → K) (a b : K) (p : Int) (hp : 1 ≤ p) :
    integrar_por_trapezios f a b p =
      (f a + 2 * (∑ i in Icc (1 : Int) (p - 1), f (a + (i : K) * ((b - a) / (p : K)))) + f b)
        * ((b - a) / (p : K)) / 2 := by
  obtain ⟨n, rfl⟩ := exists_succ_of_one_le p hp
  rw [trapezios_succ, add_sub_cancel_right,
    sum_Icc_one_eq_sum_range (fun i : Int => f (a + (i : K) * ((b - a) / (((n : Int) + 1 : Int) : K))))]
  push_cast
  rfl

theorem trapezios_formula_witness :
    (1 : Int) ≤ 3 ∧
    integrar_por_trapezios (fun x : ℚ => x ^ 2) 0 4 3 =
      ((fun x : ℚ => x ^ 2) 0
        + 2 * (∑ i in Icc (1 : Int) (3 - 1),
            (fun x : ℚ => x ^ 2) (0 + (i : ℚ) * ((4 - 0) / ((3 : Int) : ℚ))))
        + (fun x : ℚ => x ^ 2) 4) * ((4 - 0) / ((3 : Int) : ℚ)) / 2 :=
  ⟨by decide, trapezios_formula (fun x : ℚ => x ^ 2) 0 4 3 (by decide)⟩

/-- C2: for `p ≥ 1` the result is the sum of the areas of the `p` trapezoids
between consecutive sample points, `x_0 = a` and `x_p = b` included. -/
theorem trapezios_eq_soma_das_areas (f : K → K) (a b : K) (p : Int) (hp : 1 ≤ p) :
    integrar_por_trapezios f a b p = soma_das_areas f a b p
      ∧ ponto a b p 0 = a ∧ ponto a b p p.toNat = b := by
  obtain ⟨n, rfl⟩ := exists_succ_of_one_le p hp
  have hn : ((n : Int) + 1).toNat = n + 1 := by omega
  have hne : (n : K) + 1 ≠ 0 := by positivity
  have hb : a + ((n : K) + 1) * ((b - a) / ((n : K) + 1)) = b := by
    field_simp
  refine ⟨?_, by simp [ponto], ?_⟩
  · rw [trapezios_succ, soma_das_areas, hn, ← sum_div, ← sum_mul, sum_add_distrib,
      sum_range_succ' (fun i => f (ponto a b ((n : Int) + 1) i)),
      sum_range_succ (fun i => f (ponto a b ((n : Int) + 1) (i + 1)))]
    simp only [ponto]
    push_cast
    rw [hb]
    simp only [zero_mul, add_zero, zero_add]
    ring
  · rw [hn, ponto]
    push_cast
    exact hb

theorem trapezios_eq_soma_das_areas_witness :
    (1 : Int) ≤ 3 ∧
    (integrar_por_trapezios (fun x : ℚ => x ^ 2) 0 4 3
        = soma_das_areas (fun x : ℚ => x ^ 2) 0 4 3
      ∧ ponto (0 : ℚ) 4 3 0 = 0 ∧ ponto (0 : ℚ) 4 3 (3 : Int).toNat = 4) :=
  ⟨by decide, trapezios_eq_soma_das_areas (fun x : ℚ => x ^ 2) 0 4 3 (by decide)⟩

/-- Interior sum of an affine integrand. -/
theorem sum_afim (m c a h : K) (n : ℕ) :
    ∑ k in range n, (m * (a + ((k : K) + 1) * h) + c)
      = n * (m * a + c) + m * h * (n * (n + 1) / 2) := by
  induction n with
  | zero => simp
  | succ n ih =>
    rw [sum_range_succ, ih]
    push_cast
    ring

/-- C3: for an affine integrand `f(x) = m*x + c` and `p ≥ 1` the result is the
analytic integral `m*(b^2 - a^2)/2 + c*(b - a)`. -/
theorem trapezios_afim_exato (m c a b : K) (p : Int) (hp : 1 ≤ p) :
    integrar_por_trapezios (fun x : K => m * x + c) a b p
        = m * (b ^ 2 - a ^ 2) / 2 + c * (b - a)
      ∧ integrar_por_trapezios (fun _ : K => c) a b p = c * (b - a) := by
  obtain ⟨n, rfl⟩ := exists_succ_of_one_le p hp
  have hne : (n : K) + 1 ≠ 0 := by positivity
  have key : ∀ m' : K, integrar_por_trapezios (fun x : K => m' * x + c) a b ((n : Int) + 1)
      = m' * (b ^ 2 - a ^ 2) / 2 + c * (b - a) := by
    intro m'
    rw [trapezios_succ, sum_afim]
    field_simp
    ring
  refine ⟨key m, ?_⟩
  have h0 := key 0
  simpa using h0

theorem trapezios_afim_exato_witness :
    (1 : Int) ≤ 5 ∧
    (integrar_por_trapezios (fun x : ℚ => 3 * x + 7) (-1) 2 5
        = 3 * (2 ^ 2 - (-1) ^ 2) / 2 + 7 * (2 - (-1))
      ∧ integrar_por_trapezios (fun _ : ℚ => 7) (-1) 2 5 = 7 * (2 - (-1))) :=
  ⟨by decide, trapezios_afim_exato (3 : ℚ) 7 (-1) 2 5 (by decide)⟩

/-- The interior nodes of the reversed call are those of the forward call, in
the opposite order: `b + (k+1)*(a-b)/p = a + (p-1-k)*(b-a)/p`. -/
theorem sum_nos_reverso (f : K → K) (a b : K) (n : ℕ) :
    ∑ k in range n, f (b + ((k : K) + 1) * ((a - b) / ((n : K) + 1)))
      = ∑ k in range n, f (a + ((k : K) + 1) * ((b - a) / ((n : K) + 1))) := by
  have hne : (n : K) + 1 ≠ 0 := by positivity
  rw [← sum_range_reflect (fun k => f (a + ((k : K) + 1) * ((b - a) / ((n : K) + 1)))) n]
  apply sum_congr rfl
  intro k hk
  have hk' : k + 1 ≤ n := mem_range.mp hk
  have hc : ((n - 1 - k : ℕ) : K) = (n : K) - 1 - k := by
    rw [Nat.sub_sub, Nat.cast_sub (by omega)]
    push_cast
    ring
  simp only [hc]
  congr 1
  field_simp
  ring

/-- C4: reversing the interval negates the result, for `p ≥ 1`. -/
theorem trapezios_reverso (f : K → K) (a b : K) (p : Int) (hp : 1 ≤ p) :
    integrar_por_trapezios f a b p = -integrar_por_trapezios f b a p := by
  obtain ⟨n, rfl⟩ := exists_succ_of_one_le p hp
  rw [trapezios_succ, trapezios_succ, sum_nos_reverso f a b n]
  ring

theorem trapezios_reverso_witness :
    (1 : Int) ≤ 3 ∧
    integrar_por_trapezios (fun x : ℚ => x ^ 2) 0 4 3
      = -integrar_por_trapezios (fun x : ℚ => x ^ 2) 4 0 3 :=
  ⟨by decide, trapezios_reverso (fun x : ℚ => x ^ 2) 0 4 3 (by decide)⟩

/-- C5: with one subinterval, which is also the call with `p` omitted, the loop
body never runs and the result is `(f(a) + f(b)) * (b - a) / 2`; for
`f(x) = x^2` on `[0, 4]` it is `(0 + 16) * 4 / 2 = 32`. -/
theorem trapezios_um (f : K → K) (a b : K) :
    integrar_por_trapezios f a b 1 = (f a + f b) * (b - a) / 2
      ∧ integrar_por_trapezios f a b = (f a + f b) * (b - a) / 2
      ∧ somaLoop f a ((b - a) / ((1 : Int) : K)) 1 1 0 = 0
      ∧ integrar_por_trapezios (fun x : K => x ^ 2) 0 4 = (0 + 16) * 4 / 2
      ∧ integrar_por_trapezios (fun x : K => x ^ 2) 0 4 = 32 := by
  have h1 : ∀ g : K → K, ∀ u v : K,
      integrar_por_trapezios g u v 1 = (g u + g v) * (v - u) / 2 := by
    intro g u v
    simp only [integrar_por_trapezios]
    rw [somaLoop_exit g u _ 1 1 0 le_rfl]
    simp
  refine ⟨h1 f a b, h1 f a b, somaLoop_exit f a _ 1 1 0 le_rfl, ?_, ?_⟩
  · rw [h1]; norm_num
  · rw [h1]; norm_num

/-- C6: `integrar_por_trapezios(x -> x^2, 0, 4, 2)` has step `h = 2`, interior
sum `f(2) = 4`, and returns `(0 + 8 + 16) * 2 / 2 = 24`. -/
theorem trapezios_dois :
    ((4 : K) - 0) / ((2 : Int) : K) = 2
      ∧ somaLoop (fun x : K => x ^ 2) 0 2 2 1 0 = (fun x : K => x ^ 2) 2
      ∧ somaLoop (fun x : K => x ^ 2) 0 2 2 1 0 = 4
      ∧ integrar_por_trapezios (fun x : K => x ^ 2) 0 4 2 = (0 + 8 + 16) * 2 / 2
      ∧ integrar_por_trapezios (fun x : K => x ^ 2) 0 4 2 = 24 := by
  have hh : ((4 : K) - 0) / ((2 : Int) : K) = 2 := by norm_num
  have hs : somaLoop (fun x : K => x ^ 2) 0 2 2 1 0 = 4 := by
    rw [somaLoop_step _ _ _ _ _ _ (by decide), somaLoop_exit _ _ _ _ _ _ (by decide)]
    norm_num
  have hr : integrar_por_trapezios (fun x : K => x ^ 2) 0 4 2 = 24 := by
    simp only [integrar_por_trapezios]
    rw [hh, hs]
    norm_num
  refine ⟨hh, ?_, hs, ?_, hr⟩
  · rw [hs]; norm_num
  · rw [hr]; norm_num

/-! ## The integrand `x^2` -/

/-- Interior sum of the integrand `x^2`. -/
theorem sum_quadrado (a h : K) (n : ℕ) :
    ∑ k in range n, (a + ((k : K) + 1) * h) ^ 2
      = n * a ^ 2 + a * h * (n * (n + 1)) + h ^ 2 * (n * (n + 1) * (2 * n + 1) / 6) := by
  induction n with
  | zero => simp
  | succ n ih =>
    rw [sum_range_succ, ih]
    push_cast
    ring

/-- The signed error of the rule on `x^2`: the result exceeds the analytic
integral `(b^3 - a^3)/3` by `(b - a)^3 / (6 * p^2)`. -/
theorem trapezios_quadrado (a b : K) (p : Int) (hp : 1 ≤ p) :
    integrar_por_trapezios (fun x : K => x ^ 2) a b p
      = (b ^ 3 - a ^ 3) / 3 + (b - a) ^ 3 / (6 * (p : K) ^ 2) := by
  obtain ⟨n, rfl⟩ := exists_succ_of_one_le p hp
  have hne : (n : K) + 1 ≠ 0 := by positivity
  rw [trapezios_succ, sum_quadrado]
  push_cast
  field_simp
  ring

/-- C7: the value `main` computes is `64/3 + 32/(3 * 10^16)`, within `10^-6`
of the analytic value `4^3/3 = 64/3`. -/
theorem main_r_valor :
    (main_r : K) = 64 / 3 + 32 / (3 * 10 ^ 16)
      ∧ |(main_r : K) - 4 ^ 3 / 3| < 1 / 10 ^ 6 := by
  have h : (main_r : K) = 64 / 3 + 32 / (3 * 10 ^ 16) := by
    rw [main_r, trapezios_quadrado 0 4 100000000 (by decide)]
    norm_num
  refine ⟨h, ?_⟩
  rw [h]
  norm_num [abs_lt]

/-- C8: on `x^2` over `a < b` the absolute error of the rule with `p ≥ 1`
subintervals is `(b - a)^3 / (6 * p^2)`, and every larger `p` gives a strictly
smaller absolute error. -/
theorem trapezios_quadrado_erro (a b : K) (hab : a < b) (p : Int) (hp : 1 ≤ p) :
    |integrar_por_trapezios (fun x : K => x ^ 2) a b p - (b ^ 3 - a ^ 3) / 3|
        = (b - a) ^ 3 / (6 * (p : K) ^ 2)
      ∧ ∀ q : Int, p < q →
          |integrar_por_trapezios (fun x : K => x ^ 2) a b q - (b ^ 3 - a ^ 3) / 3|
            < |integrar_por_trapezios (fun x : K => x ^ 2) a b p - (b ^ 3 - a ^ 3) / 3| := by
  have hpos : 0 < (b - a) ^ 3 := pow_pos (sub_pos.mpr hab) 3
  have err : ∀ r : Int, 1 ≤ r →
      |integrar_por_trapezios (fun x : K => x ^ 2) a b r - (b ^ 3 - a ^ 3) / 3|
        = (b - a) ^ 3 / (6 * (r : K) ^ 2) := by
    intro r hr
    have hr0 : (0 : K) < (r : K) := by exact_mod_cast (by omega : (0 : Int) < r)
    rw [trapezios_quadrado a b r hr, add_sub_cancel_left]
    exact abs_of_pos (by positivity)
  refine ⟨err p hp, ?_⟩
  intro q hpq
  have hp0 : (0 : K) < (p : K) := by exact_mod_cast (by omega : (0 : Int) < p)
  have hpq' : (p : K) < (q : K) := by exact_mod_cast hpq
  rw [err p hp, err q (by omega)]
  apply div_lt_div_of_pos_left hpos (by positivity)
  have : (p : K) ^ 2 < (q : K) ^ 2 := pow_lt_pow_left₀ hpq' hp0.le (by norm_num)
  linarith

theorem trapezios_quadrado_erro_witness :
    (0 : ℚ) < 4 ∧ (1 : Int) ≤ 10 ∧
    (|integrar_por_trapezios (fun x : ℚ => x ^ 2) 0 4 10 - (4 ^ 3 - 0 ^ 3) / 3|
        = (4 - 0) ^ 3 / (6 * ((10 : Int) : ℚ) ^ 2)
      ∧ ∀ q : Int, 10 < q →
          |integrar_por_trapezios (fun x : ℚ => x ^ 2) 0 4 q - (4 ^ 3 - 0 ^ 3) / 3|
            < |integrar_por_trapezios (fun x : ℚ => x ^ 2) 0 4 10 - (4 ^ 3 - 0 ^ 3) / 3|) :=
  ⟨by norm_num, by decide,
    trapezios_quadrado_erro (0 : ℚ) 4 (by norm_num) 10 (by decide)⟩

/-! ## Calls to the integrand -/

theorem somaLoopCalls_exit (f : K → K) (a h : K) (p i : Int) (soma : K) (calls : List K)
    (hip : p ≤ i) : somaLoopCalls f a h p i soma calls = (soma, calls) := by
  rw [somaLoopCalls, if_neg (not_lt.mpr hip)]

theorem somaLoopCalls_step (f : K → K) (a h : K) (p i : Int) (soma : K) (calls : List K)
    (hip : i < p) :
    somaLoopCalls f a h p i soma calls
      = somaLoopCalls f a h p (i + 1) (soma + f (a + (i : K) * h))
          (calls ++ [a + (i : K) * h]) := by
  rw [somaLoopCalls, if_pos hip]

/-- The instrumented loop computes what the loop computes, and calls `f` at the
`n` nodes `a + (i + k)*h`, `k = 0 .. n-1`, in this order. -/
theorem somaLoopCalls_eq (f : K → K) (a h : K) (p : Int) (n : ℕ) :
    ∀ (i : Int) (soma : K) (calls : List K), p = i + n →
      somaLoopCalls f a h p i soma calls
        = (somaLoop f a h p i soma,
            calls ++ (List.range n).map (fun k : ℕ => a + ((i : K) + k) * h)) := by
  induction n with
  | zero =>
    intro i soma calls hp
    have hle : p ≤ i := by simp at hp; omega
    rw [somaLoopCalls_exit f a h p i soma calls hle, somaLoop_exit f a h p i soma hle]
    simp
  | succ n ih =>
    intro i soma calls hp
    have hlt : i < p := by push_cast at hp; omega
    rw [somaLoopCalls_step f a h p i soma calls hlt, somaLoop_step f a h p i soma hlt,
      ih (i + 1) _ _ (by push_cast at hp; omega), List.range_succ_eq_map]
    simp only [List.map_cons, List.map_map, List.append_assoc, List.singleton_append,
      Nat.cast_zero, add_zero]
    congr 3
    apply List.map_congr_left
    intro k _
    simp only [Function.comp_apply, Nat.succ_eq_add_one]
    push_cast
    ring

/-- C9: for `p ≥ 1` one call invokes the integrand exactly `p + 1` times: at
the `p - 1` interior nodes `a + i*h`, `i = 1 .. p-1`, at `a`, and at `b`.  The
instrumented run returns the value of `integrar_por_trapezios`. -/
theorem trapezios_chamadas (f : K → K) (a b : K) (p : Int) (hp : 1 ≤ p) :
    (integrar_por_trapezios_calls f a b p).1 = integrar_por_trapezios f a b p
      ∧ (integrar_por_trapezios_calls f a b p).2
          = (List.range (p - 1).toNat).map
              (fun k : ℕ => a + ((k : K) + 1) * ((b - a) / (p : K))) ++ [a, b]
      ∧ ((integrar_por_trapezios_calls f a b p).2.length : Int) = p + 1 := by
  obtain ⟨n, rfl⟩ := exists_succ_of_one_le p hp
  have hn : ((n : Int) + 1 - 1).toNat = n := by omega
  have hrun := somaLoopCalls_eq f a ((b - a) / (((n : Int) + 1 : Int) : K)) ((n : Int) + 1) n 1 0 []
    (by omega)
  have hcalls : (integrar_por_trapezios_calls f a b ((n : Int) + 1)).2
      = (List.range n).map
          (fun k : ℕ => a + ((k : K) + 1) * ((b - a) / (((n : Int) + 1 : Int) : K))) ++ [a, b] := by
    simp only [integrar_por_trapezios_calls, hrun, List.nil_append]
    congr 1
    apply List.map_congr_left
    intro k _
    push_cast
    ring
  refine ⟨?_, ?_, ?_⟩
  · simp only [integrar_por_trapezios_calls, hrun, integrar_por_trapezios]
  · rw [hcalls, hn]
  · rw [hcalls]
    simp only [List.length_append, List.length_map, List.length_range, List.length_cons,
      List.length_nil]
    push_cast
    ring

theorem trapezios_chamadas_witness :
    (1 : Int) ≤ 3 ∧
    ((integrar_por_trapezios_calls (fun x : ℚ => x ^ 2) 0 4 3).1
        = integrar_por_trapezios (fun x : ℚ => x ^ 2) 0 4 3
      ∧ (integrar_por_trapezios_calls (fun x : ℚ => x ^ 2) 0 4 3).2
          = (List.range ((3 : Int) - 1).toNat).map
              (fun k : ℕ => (0 : ℚ) + ((k : ℚ) + 1) * ((4 - 0) / ((3 : Int) : ℚ))) ++ [0, 4]
      ∧ ((integrar_por_trapezios_calls (fun x : ℚ => x ^ 2) 0 4 3).2.length : Int) = 3 + 1) :=
  ⟨by decide, trapezios_chamadas (fun x : ℚ => x ^ 2) 0 4 3 (by decide)⟩

/-! ## Failure -/

/-- With its divisions guarded, the function is the source function wherever
`p ≠ 0`, and has no value at `p = 0`. -/
theorem trapezios_guarded_eq (f : K → K) (a b : K) (p : Int) :
    integrar_por_trapezios_guarded f a b p
      = if p = 0 then none else some (integrar_por_trapezios f a b p) := by
  by_cases hp : p = 0
  · subst hp
    simp [integrar_por_trapezios_guarded, divGuarded]
  · have hpK : (p : K) ≠ 0 := Int.cast_ne_zero.mpr hp
    have h2 : (2 : K) ≠ 0 := two_ne_zero
    simp [integrar_por_trapezios_guarded, integrar_por_trapezios, divGuarded, hp, hpK]

/-- C10: with division guarded, `integrar_por_trapezios(f, a, b, p)` fails if
and only if `p = 0`; for every `p ≠ 0` it returns the value of the source
function, the division by `2` never being the one that fails. -/
theorem trapezios_falha_sse_zero (f : K → K) (a b : K) (p : Int) :
    (integrar_por_trapezios_guarded f a b p = none ↔ p = 0)
      ∧ (p ≠ 0 →
          integrar_por_trapezios_guarded f a b p = some (integrar_por_trapezios f a b p))
      ∧ (divGuarded (b - a) (p : K) = none ↔ p = 0)
      ∧ ∀ x : K, divGuarded x 2 = some (x / 2) := by
  refine ⟨?_, ?_, ?_, ?_⟩
  · rw [trapezios_guarded_eq]
    by_cases hp : p = 0 <;> simp [hp]
  · intro hp
    rw [trapezios_guarded_eq, if_neg hp]
  · simp [divGuarded]
  · intro x
    simp [divGuarded]

theorem trapezios_falha_sse_zero_witness :
    integrar_por_trapezios_guarded (fun x : ℚ => x ^ 2) 0 4 0 = none
      ∧ integrar_por_trapezios_guarded (fun x : ℚ => x ^ 2) 0 4 (-2)
          = some (integrar_por_trapezios (fun x : ℚ => x ^ 2) 0 4 (-2)) :=
  ⟨(trapezios_falha_sse_zero (fun x : ℚ => x ^ 2) 0 4 0).1.mpr rfl,
    (trapezios_falha_sse_zero (fun x : ℚ => x ^ 2) 0 4 (-2)).2.1 (by decide)⟩

/-! ## Negative subdivision counts -/

/-- C12, as amended: a count `p ≤ -1` is not rejected: the loop body never
runs, in `double` as over an exact field, and the integrand is called exactly
twice (at `a`, at `b`); in `double` the result is
`(f(a) + 2*0 + f(b)) * ((b - a) / p) / 2` with every operation rounded; in
exact arithmetic it is `(f(a) + f(b)) * (b - a) / (2 * p)`, the `p = 1` result
divided by `p`, of the opposite sign. -/
theorem trapezios_negativo (f : K → K) (a b : K) (p : Int) (hp : p ≤ -1) :
    somaLoopCalls f a ((b - a) / (p : K)) p 1 0 [] = (0, [])
      ∧ (integrar_por_trapezios_calls f a b p).2 = [a, b]
      ∧ (integrar_por_trapezios_calls f a b p).1 = integrar_por_trapezios f a b p
      ∧ integrar_por_trapezios f a b p = (f a + f b) * (b - a) / (2 * (p : K))
      ∧ integrar_por_trapezios f a b p = integrar_por_trapezios f a b 1 / (p : K)
      ∧ SignType.sign (integrar_por_trapezios f a b p)
          = -SignType.sign (integrar_por_trapezios f a b 1)
      ∧ (∀ (fD : Dbl → Dbl) (aD hD sD : Dbl), somaLoopDouble fD aD hD p 1 sD = sD)
      ∧ ∀ (fD : Dbl → Dbl) (aD bD : Dbl),
          integrar_por_trapezios_double fD aD bD p
            = Dbl.div
                (Dbl.mul
                  (Dbl.add (Dbl.add (fD aD) (Dbl.mul (Dbl.ofInt 2) (Dbl.ofInt 0))) (fD bD))
                  (Dbl.div (Dbl.sub bD aD) (Dbl.ofInt p)))
                (Dbl.ofInt 2) := by
  have hp1 : p ≤ 1 := by omega
  have hloopD : ∀ (fD : Dbl → Dbl) (aD hD sD : Dbl), somaLoopDouble fD aD hD p 1 sD = sD := by
    intro fD aD hD sD
    rw [somaLoopDouble, if_neg (not_lt.mpr hp1)]
  have hpK : (p : K) < 0 := by exact_mod_cast (by omega : p < 0)
  have hrun := somaLoopCalls_exit f a ((b - a) / (p : K)) p 1 0 [] hp1
  have hval : integrar_por_trapezios f a b p = (f a + f b) * (b - a) / (2 * (p : K)) := by
    simp only [integrar_por_trapezios]
    rw [somaLoop_exit f a _ p 1 0 hp1, mul_zero, add_zero, mul_div_assoc', div_div,
      mul_comm (p : K) 2]
  have hone : integrar_por_trapezios f a b 1 = (f a + f b) * (b - a) / 2 := by
    simp only [integrar_por_trapezios]
    rw [somaLoop_exit f a _ 1 1 0 le_rfl]
    simp
  have hdiv : integrar_por_trapezios f a b p = integrar_por_trapezios f a b 1 / (p : K) := by
    rw [hval, hone]
    field_simp
  refine ⟨hrun, ?_, ?_, hval, hdiv, ?_, hloopD, ?_⟩
  · simp only [integrar_por_trapezios_calls, hrun, List.nil_append]
  · simp only [integrar_por_trapezios_calls, hrun, integrar_por_trapezios]
    rw [somaLoop_exit f a _ p 1 0 hp1]
  · rw [hdiv, div_eq_mul_inv, sign_mul, sign_neg (inv_lt_zero.mpr hpK), mul_neg_one]
  · intro fD aD bD
    simp only [integrar_por_trapezios_double, hloopD]

theorem trapezios_negativo_witness :
    (-2 : Int) ≤ -1 ∧
    (somaLoopCalls (fun x : ℚ => x ^ 2) 0 ((4 - 0) / ((-2 : Int) : ℚ)) (-2) 1 0 [] = (0, [])
      ∧ (integrar_por_trapezios_calls (fun x : ℚ => x ^ 2) 0 4 (-2)).2 = [0, 4]
      ∧ (integrar_por_trapezios_calls (fun x : ℚ => x ^ 2) 0 4 (-2)).1
          = integrar_por_trapezios (fun x : ℚ => x ^ 2) 0 4 (-2)
      ∧ integrar_por_trapezios (fun x : ℚ => x ^ 2) 0 4 (-2)
          = ((fun x : ℚ => x ^ 2) 0 + (fun x : ℚ => x ^ 2) 4) * (4 - 0) / (2 * ((-2 : Int) : ℚ))
      ∧ integrar_por_trapezios (fun x : ℚ => x ^ 2) 0 4 (-2)
          = integrar_por_trapezios (fun x : ℚ => x ^ 2) 0 4 1 / ((-2 : Int) : ℚ)
      ∧ SignType.sign (integrar_por_trapezios (fun x : ℚ => x ^ 2) 0 4 (-2))
          = -SignType.sign (integrar_por_trapezios (fun x : ℚ => x ^ 2) 0 4 1)
      ∧ (∀ (fD : Dbl → Dbl) (aD hD sD : Dbl), somaLoopDouble fD aD hD (-2) 1 sD = sD)
      ∧ ∀ (fD : Dbl → Dbl) (aD bD : Dbl),
          integrar_por_trapezios_double fD aD bD (-2)
            = Dbl.div
                (Dbl.mul
                  (Dbl.add (Dbl.add (fD aD) (Dbl.mul (Dbl.ofInt 2) (Dbl.ofInt 0))) (fD bD))
                  (Dbl.div (Dbl.sub bD aD) (Dbl.ofInt (-2))))
                (Dbl.ofInt 2)) :=
  ⟨by decide, trapezios_negativo (fun x : ℚ => x ^ 2) 0 4 (-2) (by decide)⟩

/-! ## Linearity and monotonicity in the integrand -/

/-- The loop is linear in the integrand and the accumulator together. -/
theorem somaLoop_linear (f g : K → K) (α β a h : K) (p : Int) (n : ℕ) :
    ∀ (i : Int) (s t : K), p ≤ i + n →
      somaLoop (fun x : K => α * f x + β * g x) a h p i (α * s + β * t)
        = α * somaLoop f a h p i s + β * somaLoop g a h p i t := by
  induction n with
  | zero =>
    intro i s t hp
    have hle : p ≤ i := by simpa using hp
    rw [somaLoop_exit _ a h p i _ hle, somaLoop_exit f a h p i s hle,
      somaLoop_exit g a h p i t hle]
  | succ n ih =>
    intro i s t hp
    by_cases hlt : i < p
    · rw [somaLoop_step _ a h p i _ hlt, somaLoop_step f a h p i s hlt,
        somaLoop_step g a h p i t hlt, ← ih (i + 1) _ _ (by push_cast at hp; omega)]
      congr 1
      ring
    · have hle : p ≤ i := not_lt.mp hlt
      rw [somaLoop_exit _ a h p i _ hle, somaLoop_exit f a h p i s hle,
        somaLoop_exit g a h p i t hle]

/-- C14: for `p ≠ 0` the result is linear in the integrand. -/
theorem trapezios_linear (f g : K → K) (α β a b : K) (p : Int) (_hp : p ≠ 0) :
    integrar_por_trapezios (fun x : K => α * f x + β * g x) a b p
      = α * integrar_por_trapezios f a b p + β * integrar_por_trapezios g a b p := by
  have hloop := somaLoop_linear f g α β a ((b - a) / (p : K)) p (p - 1).toNat 1 0 0 (by omega)
  simp only [mul_zero, add_zero] at hloop
  simp only [integrar_por_trapezios, hloop]
  ring

theorem trapezios_linear_witness :
    (3 : Int) ≠ 0 ∧
    integrar_por_trapezios (fun x : ℚ => 2 * (fun y : ℚ => y ^ 2) x + 5 * (fun y : ℚ => y) x) 0 4 3
      = 2 * integrar_por_trapezios (fun y : ℚ => y ^ 2) 0 4 3
        + 5 * integrar_por_trapezios (fun y : ℚ => y) 0 4 3 :=
  ⟨by decide, trapezios_linear (fun y : ℚ => y ^ 2) (fun y : ℚ => y) 2 5 0 4 3 (by decide)⟩

theorem wrap32_eq_self (x : Int) (hlo : INT_MIN ≤ x) (hhi : x ≤ INT_MAX) : wrap32 x = x := by
  simp only [INT_MIN, INT_MAX] at hlo hhi
  simp only [wrap32]
  omega

/-- With fuel for the `(p - i)` iterations still to come, the 32-bit loop
exits with the accumulator of the loop over unbounded integers, the counter
having run through `i, i + 1, ..., max(p, i)` without wrapping. -/
theorem somaLoop32_run (f : K → K) (a h : K) (p : Int) (hhi : p ≤ INT_MAX) (n : ℕ) :
    ∀ (fuel : ℕ) (i : Int) (soma : K) (vals : List Int),
      (p - i).toNat = n → n ≤ fuel → INT_MIN ≤ i →
      somaLoop32 f a h p fuel i soma vals
        = some (somaLoop f a h p i soma,
            vals ++ (List.range (n + 1)).map (fun k : ℕ => i + (k : Int))) := by
  induction n with
  | zero =>
    intro fuel i soma vals hn _ _
    have hle : p ≤ i := by omega
    rw [somaLoop_exit f a h p i soma hle]
    cases fuel <;> simp [somaLoop32, not_lt.mpr hle, List.range_succ]
  | succ n ih =>
    intro fuel i soma vals hn hfuel hlo
    have hlt : i < p := by omega
    obtain ⟨m, rfl⟩ : ∃ m, fuel = m + 1 := ⟨fuel - 1, by omega⟩
    have hw : wrap32 (i + 1) = i + 1 := wrap32_eq_self (i + 1) (by omega) (by omega)
    rw [somaLoop32, if_pos hlt, hw, somaLoop_step f a h p i soma hlt,
      ih m (i + 1) _ _ (by omega) (by omega) (by omega), List.range_succ_eq_map (n + 1)]
    simp only [List.map_cons, List.map_map, List.append_assoc, List.singleton_append,
      Nat.cast_zero, add_zero]
    congr 3
    apply congrArg (List.cons i)
    apply List.map_congr_left
    intro k _
    simp only [Function.comp_apply, Nat.succ_eq_add_one]
    push_cast
    ring

/-- With fuel for fewer iterations than the loop makes, the run is cut. -/
theorem somaLoop32_cut (f : K → K) (a h : K) (p : Int) (hhi : p ≤ INT_MAX) (fuel : ℕ) :
    ∀ (i : Int) (soma : K) (vals : List Int),
      fuel < (p - i).toNat → INT_MIN ≤ i →
      somaLoop32 f a h p fuel i soma vals = none := by
  induction fuel with
  | zero =>
    intro i soma vals hn _
    have hlt : i < p := by omega
    simp [somaLoop32, hlt]
  | succ m ih =>
    intro i soma vals hn hlo
    have hlt : i < p := by omega
    have hw : wrap32 (i + 1) = i + 1 := wrap32_eq_self (i + 1) (by omega) (by omega)
    rw [somaLoop32, if_pos hlt, hw]
    exact ih (i + 1) _ _ (by omega) (by omega)

/-- C13: for every 32-bit `p` the loop terminates after exactly `max(p - 1, 0)`
iterations; the counter takes the values `1, 2, ..., max(p, 1)` only, all at
most `INT_MAX`, and no increment `i++` wraps.  The accumulator at the exit is
that of the loop over unbounded integers. -/
theorem laco_termina_sem_overflow (f : K → K) (a h : K) (p : Int)
    (_hlo : INT_MIN ≤ p) (hhi : p ≤ INT_MAX) :
    (∀ fuel : ℕ, somaLoop32 f a h p fuel 1 0 [] = none ↔ fuel < (max (p - 1) 0).toNat)
      ∧ (∀ fuel : ℕ, (max (p - 1) 0).toNat ≤ fuel →
          somaLoop32 f a h p fuel 1 0 []
            = some (somaLoop f a h p 1 0,
                (List.range ((max (p - 1) 0).toNat + 1)).map (fun k : ℕ => 1 + (k : Int))))
      ∧ (∀ k : ℕ, k < (max (p - 1) 0).toNat + 1 →
          1 ≤ 1 + (k : Int) ∧ 1 + (k : Int) ≤ max p 1 ∧ 1 + (k : Int) ≤ INT_MAX)
      ∧ (∀ k : ℕ, k < (max (p - 1) 0).toNat →
          1 + (k : Int) + 1 ≤ INT_MAX ∧ wrap32 (1 + (k : Int) + 1) = 1 + (k : Int) + 1) := by
  have hmax : (max (p - 1) 0).toNat = (p - 1).toNat := by
    rcases le_total (p - 1) 0 with h0 | h0
    · rw [max_eq_right h0]; omega
    · rw [max_eq_left h0]
  have h1 : INT_MIN ≤ 1 := by decide
  have hgood : ∀ fuel : ℕ, (p - 1).toNat ≤ fuel →
      somaLoop32 f a h p fuel 1 0 []
        = some (somaLoop f a h p 1 0,
            (List.range ((p - 1).toNat + 1)).map (fun k : ℕ => 1 + (k : Int))) := by
    intro fuel hfuel
    rw [somaLoop32_run f a h p hhi (p - 1).toNat fuel 1 0 [] rfl hfuel h1, List.nil_append]
  rw [hmax]
  refine ⟨?_, hgood, ?_, ?_⟩
  · intro fuel
    constructor
    · intro hnone
      by_contra hge
      rw [hgood fuel (not_lt.mp hge)] at hnone
      exact Option.some_ne_none _ hnone
    · intro hlt
      exact somaLoop32_cut f a h p hhi fuel 1 0 [] hlt h1
  · intro k hk
    have hI : (1 : Int) ≤ INT_MAX := by decide
    refine ⟨by omega, ?_, ?_⟩
    · rcases le_total p 1 with hp | hp
      · rw [max_eq_right hp]; omega
      · rw [max_eq_left hp]; omega
    · omega
  · intro k hk
    have hle : 1 + (k : Int) + 1 ≤ INT_MAX := by omega
    exact ⟨hle, wrap32_eq_self _ (by simp only [INT_MIN]; omega) hle⟩

theorem laco_termina_sem_overflow_witness :
    INT_MIN ≤ 4 ∧ (4 : Int) ≤ INT_MAX ∧
    ((∀ fuel : ℕ, somaLoop32 (fun x : ℚ => x ^ 2) 0 1 4 fuel 1 0 [] = none
          ↔ fuel < (max ((4 : Int) - 1) 0).toNat)
      ∧ (∀ fuel : ℕ, (max ((4 : Int) - 1) 0).toNat ≤ fuel →
          somaLoop32 (fun x : ℚ => x ^ 2) 0 1 4 fuel 1 0 []
            = some (somaLoop (fun x : ℚ => x ^ 2) 0 1 4 1 0,
                (List.range ((max ((4 : Int) - 1) 0).toNat + 1)).map
                  (fun k : ℕ => 1 + (k : Int))))
      ∧ (∀ k : ℕ, k < (max ((4 : Int) - 1) 0).toNat + 1 →
          1 ≤ 1 + (k : Int) ∧ 1 + (k : Int) ≤ max 4 1 ∧ 1 + (k : Int) ≤ INT_MAX)
      ∧ (∀ k : ℕ, k < (max ((4 : Int) - 1) 0).toNat →
          1 + (k : Int) + 1 ≤ INT_MAX ∧ wrap32 (1 + (k : Int) + 1) = 1 + (k : Int) + 1)) :=
  ⟨by decide, by decide,
    laco_termina_sem_overflow (fun x : ℚ => x ^ 2) 0 1 4 (by decide) (by decide)⟩

/-! ## The classical error bound -/

/-- The result for `p = n + 1` subintervals as the sum of the `n + 1` trapezoid
areas, the sample points written out. -/
theorem trapezios_succ_areas (f : K → K) (a b : K) (n : ℕ) :
    integrar_por_trapezios f a b ((n : Int) + 1)
      = ∑ k in range (n + 1),
          (f (a + (k : K) * ((b - a) / ((n : K) + 1)))
            + f (a + ((k : K) + 1) * ((b - a) / ((n : K) + 1)))) * ((b - a) / ((n : K) + 1)) / 2 := by
  have hne : (n : K) + 1 ≠ 0 := by positivity
  have hb : a + ((n : K) + 1) * ((b - a) / ((n : K) + 1)) = b := by
    field_simp
  rw [trapezios_succ, ← sum_div, ← sum_mul, sum_add_distrib,
    sum_range_succ' (fun k : ℕ => f (a + (k : K) * ((b - a) / ((n : K) + 1)))),
    sum_range_succ (fun k : ℕ => f (a + ((k : K) + 1) * ((b - a) / ((n : K) + 1))))]
  push_cast
  rw [hb]
  simp only [zero_mul, add_zero]
  ring

/-- Error of one trapezoid: for `f` twice differentiable on `[c, d]`, `c < d`,
the integral minus the area is `-(d - c)^3 / 12 * f''(ξ)` at some `ξ` strictly
between `c` and `d`. -/
theorem trapezio_erro_local (f f' f'' : ℝ → ℝ) (c d : ℝ) (hcd : c < d)
    (hf : ∀ x ∈ Set.Icc c d, HasDerivWithinAt f (f' x) (Set.Icc c d) x)
    (hf' : ∀ x ∈ Set.Icc c d, HasDerivWithinAt f' (f'' x) (Set.Icc c d) x) :
    ∃ ξ ∈ Set.Ioo c d,
      (∫ x in c..d, f x) - (f c + f d) * (d - c) / 2 = -(d - c) ^ 3 / 12 * f'' ξ := by
  have hfc : ContinuousOn f (Set.Icc c d) := fun x hx => (hf x hx).continuousWithinAt
  have hfc' : ContinuousOn f' (Set.Icc c d) := fun x hx => (hf' x hx).continuousWithinAt
  have hfd : ∀ x ∈ Set.Ioo c d, HasDerivAt f (f' x) x := fun x hx =>
    (hf x (Set.Ioo_subset_Icc_self hx)).hasDerivAt (Icc_mem_nhds hx.1 hx.2)
  have hfd' : ∀ x ∈ Set.Ioo c d, HasDerivAt f' (f'' x) x := fun x hx =>
    (hf' x (Set.Ioo_subset_Icc_self hx)).hasDerivAt (Icc_mem_nhds hx.1 hx.2)
  have hdc : 0 < d - c := sub_pos.mpr hcd
  -- the constant that makes the auxiliary function vanish at `d`
  set M : ℝ := ((∫ x in c..d, f x) - (f c + f d) * (d - c) / 2) / (d - c) ^ 3 with hM
  have hMd : (∫ x in c..d, f x) - (f c + f d) * (d - c) / 2 = M * (d - c) ^ 3 := by
    rw [hM, div_mul_cancel₀ _ (pow_ne_zero 3 hdc.ne')]
  -- the auxiliary function and its first derivative
  let G : ℝ → ℝ := fun t => (∫ x in c..t, f x) - (f c + f t) * (t - c) / 2 - M * (t - c) ^ 3
  let g : ℝ → ℝ := fun t => f t - ((f' t) * (t - c) + (f c + f t)) / 2 - 3 * M * (t - c) ^ 2
  have hint : IntervalIntegrable f MeasureTheory.volume c d :=
    hfc.intervalIntegrable_of_Icc hcd.le
  have hGc : ContinuousOn G (Set.Icc c d) := by
    have hprim : ContinuousOn (fun t => ∫ x in c..t, f x) (Set.Icc c d) := by
      have := intervalIntegral.continuousOn_primitive_interval' hint Set.left_mem_uIcc
      rwa [Set.uIcc_of_le hcd.le] at this
    have h1 : ContinuousOn (fun t : ℝ => (f c + f t) * (t - c) / 2) (Set.Icc c d) :=
      ((continuousOn_const.add hfc).mul (continuousOn_id.sub continuousOn_const)).div_const 2
    have h2 : ContinuousOn (fun t : ℝ => M * (t - c) ^ 3) (Set.Icc c d) :=
      continuousOn_const.mul ((continuousOn_id.sub continuousOn_const).pow 3)
    exact (hprim.sub h1).sub h2
  have hGd : ∀ t ∈ Set.Ioo c d, HasDerivAt G (g t) t := by
    intro t ht
    have hIt : IntervalIntegrable f MeasureTheory.volume c t :=
      (hfc.mono (Set.Icc_subset_Icc_right ht.2.le)).intervalIntegrable_of_Icc ht.1.le
    have hprim : HasDerivAt (fun u => ∫ x in c..u, f x) (f t) t :=
      intervalIntegral.integral_hasDerivAt_right hIt
        ((hfc.mono Set.Ioo_subset_Icc_self).stronglyMeasurableAtFilter isOpen_Ioo t ht)
        (hfd t ht).continuousAt
    have hlin : HasDerivAt (fun u : ℝ => u - c) 1 t := (hasDerivAt_id t).sub_const c
    have h1 : HasDerivAt (fun u : ℝ => (f c + f u) * (u - c) / 2)
        (((f' t) * (t - c) + (f c + f t) * 1) / 2) t :=
      (((hfd t ht).const_add (f c)).mul hlin).div_const 2
    have h2 : HasDerivAt (fun u : ℝ => M * (u - c) ^ 3) (M * (3 * (t - c) ^ 2 * 1)) t :=
      (hlin.pow 3).const_mul M
    have := (hprim.sub h1).sub h2
    convert this using 1
    simp only [g]
    ring
  have hG0 : G c = G d := by
    simp only [G, intervalIntegral.integral_same, sub_self, mul_zero, zero_div]
    rw [hMd]
    norm_num
  obtain ⟨η, hη, hgη⟩ := exists_hasDerivAt_eq_zero hcd hGc hG0 hGd
  -- second application, to `g` on `[c, η]`
  have hsub : Set.Icc c η ⊆ Set.Icc c d := Set.Icc_subset_Icc_right hη.2.le
  have hgc : ContinuousOn g (Set.Icc c η) := by
    have hfcη := hfc.mono hsub
    have hfcη' := hfc'.mono hsub
    have hl : ContinuousOn (fun t : ℝ => t - c) (Set.Icc c η) := continuousOn_id.sub continuousOn_const
    exact (hfcη.sub (((hfcη'.mul hl).add (continuousOn_const.add hfcη)).div_const 2)).sub
      (continuousOn_const.mul (hl.pow 2))
  have hgd : ∀ t ∈ Set.Ioo c η, HasDerivAt g (-(t - c) * (f'' t / 2 + 6 * M)) t := by
    intro t ht
    have ht' : t ∈ Set.Ioo c d := ⟨ht.1, ht.2.trans hη.2⟩
    have hlin : HasDerivAt (fun u : ℝ => u - c) 1 t := (hasDerivAt_id t).sub_const c
    have h1 := (((hfd' t ht').mul hlin).add ((hfd t ht').const_add (f c))).div_const 2
    have h2 : HasDerivAt (fun u : ℝ => 3 * M * (u - c) ^ 2) (3 * M * (2 * (t - c) ^ 1 * 1)) t :=
      (hlin.pow 2).const_mul (3 * M)
    have := ((hfd t ht').sub h1).sub h2
    convert this using 1
    ring
  have hg0 : g c = g η := by
    rw [hgη]
    simp only [g]
    ring
  obtain ⟨ξ, hξ, hgξ⟩ := exists_hasDerivAt_eq_zero hη.1 hgc hg0 hgd
  refine ⟨ξ, ⟨hξ.1, hξ.2.trans hη.2⟩, ?_⟩
  have hne : -(ξ - c) ≠ 0 := neg_ne_zero.mpr (sub_pos.mpr hξ.1).ne'
  have h12 : f'' ξ / 2 + 6 * M = 0 := (mul_eq_zero.mp hgξ).resolve_left hne
  rw [hMd]
  have : M = -(f'' ξ) / 12 := by linarith
  rw [this]
  ring
/-- A sum of `m + 1` values of a function continuous on `[a, b]`, taken at
points of `[a, b]`, is `m + 1` times one value of it on `[a, b]`. -/
theorem soma_valor_intermedio (g : ℝ → ℝ) (a b : ℝ) (hg : ContinuousOn g (Set.Icc a b))
    (m : ℕ) (ξ : ℕ → ℝ) (hξ : ∀ k ∈ range (m + 1), ξ k ∈ Set.Icc a b) :
    ∃ x ∈ Set.Icc a b, ∑ k in range (m + 1), g (ξ k) = ((m : ℝ) + 1) * g x := by
  have hne : (Set.Icc a b).Nonempty := ⟨ξ 0, hξ 0 (mem_range.mpr (Nat.succ_pos m))⟩
  obtain ⟨lo, hlo, hmin⟩ := isCompact_Icc.exists_isMinOn hne hg
  obtain ⟨hi, hhi, hmax⟩ := isCompact_Icc.exists_isMaxOn hne hg
  have hm : (0 : ℝ) < (m : ℝ) + 1 := by positivity
  have hlow : ((m : ℝ) + 1) * g lo ≤ ∑ k in range (m + 1), g (ξ k) := by
    have hk : ∀ k ∈ range (m + 1), g lo ≤ g (ξ k) := fun k hk => hmin (hξ k hk)
    have := sum_le_sum hk
    simpa using this
  have hupp : ∑ k in range (m + 1), g (ξ k) ≤ ((m : ℝ) + 1) * g hi := by
    have hk : ∀ k ∈ range (m + 1), g (ξ k) ≤ g hi := fun k hk => hmax (hξ k hk)
    have := sum_le_sum hk
    simpa using this
  have hmem : (∑ k in range (m + 1), g (ξ k)) / ((m : ℝ) + 1) ∈ Set.Icc (g lo) (g hi) :=
    ⟨by rw [le_div_iff₀ hm]; linarith, by rw [div_le_iff₀ hm]; linarith⟩
  obtain ⟨x, hx, hgx⟩ := isPreconnected_Icc.intermediate_value hlo hhi hg hmem
  refine ⟨x, hx, ?_⟩
  rw [hgx]
  field_simp

/-- Error of the rule with `n + 1` subintervals, the derivatives given as
functions: `f'` the derivative of `f` and `f''` that of `f'` on `[a, b]`
(one-sided at the endpoints), `f''` continuous there. -/
theorem trapezios_erro_derivadas (f f' f'' : ℝ → ℝ) (a b : ℝ) (hab : a < b) (n : ℕ)
    (hf : ∀ x ∈ Set.Icc a b, HasDerivWithinAt f (f' x) (Set.Icc a b) x)
    (hf' : ∀ x ∈ Set.Icc a b, HasDerivWithinAt f' (f'' x) (Set.Icc a b) x)
    (hf'' : ContinuousOn f'' (Set.Icc a b)) :
    ∃ ξ ∈ Set.Icc a b,
      (∫ x in a..b, f x) - integrar_por_trapezios f a b ((n : Int) + 1)
        = -(b - a) * ((b - a) / ((n : ℝ) + 1)) ^ 2 / 12 * f'' ξ := by
  have hn : (0 : ℝ) < (n : ℝ) + 1 := by positivity
  have hh : 0 < (b - a) / ((n : ℝ) + 1) := div_pos (sub_pos.mpr hab) hn
  set h : ℝ := (b - a) / ((n : ℝ) + 1) with hh_def
  have hnh : ((n : ℝ) + 1) * h = b - a := by rw [hh_def]; field_simp
  -- the sample points
  let x : ℕ → ℝ := fun k => a + (k : ℝ) * h
  have hx0 : x 0 = a := by simp [x]
  have hxn : x (n + 1) = b := by simp only [x]; push_cast; linarith
  have hxs : ∀ k : ℕ, x (k + 1) = x k + h := by
    intro k; simp only [x]; push_cast; ring
  have hxlo : ∀ k : ℕ, a ≤ x k := by
    intro k
    have : 0 ≤ (k : ℝ) * h := by positivity
    simp only [x]; linarith
  have hxhi : ∀ k : ℕ, k ≤ n + 1 → x k ≤ b := by
    intro k hk
    have hk' : (k : ℝ) ≤ (n : ℝ) + 1 := by exact_mod_cast hk
    have : (k : ℝ) * h ≤ ((n : ℝ) + 1) * h := mul_le_mul_of_nonneg_right hk' hh.le
    simp only [x]; linarith
  have hsub : ∀ k : ℕ, k < n + 1 → Set.Icc (x k) (x (k + 1)) ⊆ Set.Icc a b := fun k hk =>
    Set.Icc_subset_Icc (hxlo k) (hxhi (k + 1) hk)
  have hfc : ContinuousOn f (Set.Icc a b) := fun y hy => (hf y hy).continuousWithinAt
  -- the error of each trapezoid
  have hloc : ∀ k ∈ range (n + 1), ∃ ξ ∈ Set.Icc a b,
      (∫ y in (x k)..(x (k + 1)), f y) - (f (x k) + f (x (k + 1))) * h / 2
        = -h ^ 3 / 12 * f'' ξ := by
    intro k hk
    have hk' : k < n + 1 := mem_range.mp hk
    have hlt : x k < x (k + 1) := by rw [hxs]; linarith
    obtain ⟨ξ, hξ, he⟩ := trapezio_erro_local f f' f'' (x k) (x (k + 1)) hlt
      (fun y hy => (hf y (hsub k hk' hy)).mono (hsub k hk'))
      (fun y hy => (hf' y (hsub k hk' hy)).mono (hsub k hk'))
    refine ⟨ξ, hsub k hk' (Set.Ioo_subset_Icc_self hξ), ?_⟩
    have hw : x (k + 1) - x k = h := by rw [hxs]; ring
    rw [hw] at he
    exact he
  choose! ξ hξ hξe using hloc
  obtain ⟨c, hc, hsum⟩ := soma_valor_intermedio f'' a b hf'' n ξ hξ
  refine ⟨c, hc, ?_⟩
  -- the integral and the rule, split over the subintervals
  have hint : ∑ k in range (n + 1), ∫ y in (x k)..(x (k + 1)), f y = ∫ y in a..b, f y := by
    rw [intervalIntegral.sum_integral_adjacent_intervals, hx0, hxn]
    intro k hk
    exact (hfc.mono (hsub k hk)).intervalIntegrable_of_Icc (by rw [hxs]; linarith)
  have hrule : integrar_por_trapezios f a b ((n : Int) + 1)
      = ∑ k in range (n + 1), (f (x k) + f (x (k + 1))) * h / 2 := by
    rw [trapezios_succ_areas]
    apply sum_congr rfl
    intro k _
    simp only [x]
    push_cast
    rfl
  rw [← hint, hrule, ← sum_sub_distrib, sum_congr rfl hξe, ← mul_sum, hsum]
  have : b - a = ((n : ℝ) + 1) * h := hnh.symm
  rw [this]
  ring

/-- C11: for `f` twice continuously differentiable on `[a, b]`, `a < b`, and
`p ≥ 1`, with `h = (b - a) / p`, there is `ξ` in `[a, b]` with
`∫ f - integrar_por_trapezios(f, a, b, p) = -(b - a) * h^2 / 12 * f''(ξ)`;
hence the error is at most `(b - a) / 12 * M * h^2` for any bound `M` of
`|f''|` on `[a, b]`. -/
theorem trapezios_erro_classico (f : ℝ → ℝ) (a b : ℝ) (hab : a < b) (p : Int) (hp : 1 ≤ p)
    (hf : ContDiffOn ℝ 2 f (Set.Icc a b)) :
    (∃ ξ ∈ Set.Icc a b,
        (∫ x in a..b, f x) - integrar_por_trapezios f a b p
          = -(b - a) * ((b - a) / (p : ℝ)) ^ 2 / 12 * iteratedDerivWithin 2 f (Set.Icc a b) ξ)
      ∧ ∀ M : ℝ, (∀ x ∈ Set.Icc a b, |iteratedDerivWithin 2 f (Set.Icc a b) x| ≤ M) →
          |(∫ x in a..b, f x) - integrar_por_trapezios f a b p|
            ≤ (b - a) / 12 * M * ((b - a) / (p : ℝ)) ^ 2 := by
  obtain ⟨n, rfl⟩ := exists_succ_of_one_le p hp
  have hs : UniqueDiffOn ℝ (Set.Icc a b) := uniqueDiffOn_Icc hab
  have hd1 : DifferentiableOn ℝ f (Set.Icc a b) := hf.differentiableOn (by norm_num)
  have hc1 : ContDiffOn ℝ 1 (derivWithin f (Set.Icc a b)) (Set.Icc a b) :=
    hf.derivWithin hs (by norm_num)
  have hd2 : DifferentiableOn ℝ (derivWithin f (Set.Icc a b)) (Set.Icc a b) :=
    hc1.differentiableOn le_rfl
  have hc0 : ContinuousOn (derivWithin (derivWithin f (Set.Icc a b)) (Set.Icc a b))
      (Set.Icc a b) :=
    (hc1.derivWithin hs (by norm_num : (0 : WithTop ℕ∞) + 1 ≤ 1)).continuousOn
  have h2 : ∀ x ∈ Set.Icc a b, iteratedDerivWithin 2 f (Set.Icc a b) x
      = derivWithin (derivWithin f (Set.Icc a b)) (Set.Icc a b) x := by
    intro x hx
    rw [show (2 : ℕ) = 1 + 1 from rfl, iteratedDerivWithin_succ' hs hx,
      iteratedDerivWithin_one (hs x hx)]
  obtain ⟨ξ, hξ, he⟩ := trapezios_erro_derivadas f (derivWithin f (Set.Icc a b))
    (derivWithin (derivWithin f (Set.Icc a b)) (Set.Icc a b)) a b hab n
    (fun x hx => (hd1 x hx).hasDerivWithinAt) (fun x hx => (hd2 x hx).hasDerivWithinAt) hc0
  have he' : (∫ x in a..b, f x) - integrar_por_trapezios f a b ((n : Int) + 1)
      = -(b - a) * ((b - a) / (((n : Int) + 1 : Int) : ℝ)) ^ 2 / 12
          * iteratedDerivWithin 2 f (Set.Icc a b) ξ := by
    rw [he, h2 ξ hξ]
    push_cast
    rfl
  refine ⟨⟨ξ, hξ, he'⟩, ?_⟩
  intro M hM
  have hsq : 0 ≤ ((b - a) / (((n : Int) + 1 : Int) : ℝ)) ^ 2 := sq_nonneg _
  rw [he', abs_mul, abs_div, abs_mul, abs_neg, abs_of_pos (sub_pos.mpr hab), abs_of_nonneg hsq,
    abs_of_pos (by norm_num : (0 : ℝ) < 12)]
  calc (b - a) * ((b - a) / (((n : Int) + 1 : Int) : ℝ)) ^ 2 / 12
          * |iteratedDerivWithin 2 f (Set.Icc a b) ξ|
      ≤ (b - a) * ((b - a) / (((n : Int) + 1 : Int) : ℝ)) ^ 2 / 12 * M :=
        mul_le_mul_of_nonneg_left (hM ξ hξ)
          (div_nonneg (mul_nonneg (sub_pos.mpr hab).le hsq) (by norm_num))
    _ = (b - a) / 12 * M * ((b - a) / (((n : Int) + 1 : Int) : ℝ)) ^ 2 := by ring

theorem trapezios_erro_classico_witness :
    (0 : ℝ) < 1 ∧ (1 : Int) ≤ 2 ∧ ContDiffOn ℝ 2 (fun x : ℝ => x ^ 2) (Set.Icc 0 1) ∧
    ((∃ ξ ∈ Set.Icc (0 : ℝ) 1,
        (∫ x in (0 : ℝ)..1, (fun x : ℝ => x ^ 2) x)
            - integrar_por_trapezios (fun x : ℝ => x ^ 2) 0 1 2
          = -(1 - 0) * ((1 - 0) / ((2 : Int) : ℝ)) ^ 2 / 12
              * iteratedDerivWithin 2 (fun x : ℝ => x ^ 2) (Set.Icc 0 1) ξ)
      ∧ ∀ M : ℝ,
          (∀ x ∈ Set.Icc (0 : ℝ) 1,
            |iteratedDerivWithin 2 (fun x : ℝ => x ^ 2) (Set.Icc 0 1) x| ≤ M) →
          |(∫ x in (0 : ℝ)..1, (fun x : ℝ => x ^ 2) x)
              - integrar_por_trapezios (fun x : ℝ => x ^ 2) 0 1 2|
            ≤ (1 - 0) / 12 * M * ((1 - 0) / ((2 : Int) : ℝ)) ^ 2) :=
  ⟨by norm_num, by decide, (contDiff_id.pow 2).contDiffOn,
    trapezios_erro_classico (fun x : ℝ => x ^ 2) 0 1 (by norm_num) 2 (by decide)
      (contDiff_id.pow 2).contDiffOn⟩

/-! ## The function in `double`: where rounding shows -/

theorem somaLoopDouble_exit (f : Dbl → Dbl) (a h : Dbl) (p i : Int) (soma : Dbl)
    (hip : p ≤ i) : somaLoopDouble f a h p i soma = soma := by
  rw [somaLoopDouble, if_neg (not_lt.mpr hip)]

set_option maxRecDepth 100000 in
/-- C12 in `double`, the value: with `f(x) = 3.5`, `a = 0`, `b = 1`, `p = -10`
the function returns `-6305039478318695 * 2^-54`, while
`(f(a) + f(b)) * (b - a) / (2 * p)` and the `p = 1` result divided by `p` are
both `-6305039478318694 * 2^-54`.  The sign: with `f(x) = 2^-1074` and `p = -4`
the `p = 1` result is positive and the function returns `-0`, which is not
below zero. -/
theorem trapezios_negativo_double_difere :
    integrar_por_trapezios_double (fun _ => Dbl.round false 7 2 0) (Dbl.ofInt 0) (Dbl.ofInt 1)
        (-10) = Dbl.fin true 6305039478318695 (-54)
      ∧ Dbl.div
          (Dbl.mul (Dbl.add (Dbl.round false 7 2 0) (Dbl.round false 7 2 0))
            (Dbl.sub (Dbl.ofInt 1) (Dbl.ofInt 0)))
          (Dbl.ofInt (2 * (-10))) = Dbl.fin true 6305039478318694 (-54)
      ∧ Dbl.div
          (integrar_por_trapezios_double (fun _ => Dbl.round false 7 2 0) (Dbl.ofInt 0)
            (Dbl.ofInt 1) 1)
          (Dbl.ofInt (-10)) = Dbl.fin true 6305039478318694 (-54)
      ∧ integrar_por_trapezios_double (fun _ => Dbl.fin false 1 (-1074)) (Dbl.ofInt 0)
          (Dbl.ofInt 1) 1 = Dbl.fin false 1 (-1074)
      ∧ integrar_por_trapezios_double (fun _ => Dbl.fin false 1 (-1074)) (Dbl.ofInt 0)
          (Dbl.ofInt 1) (-4) = Dbl.zero true
      ∧ Dbl.le (Dbl.ofInt 0) (Dbl.zero true) = true := by
  simp only [integrar_por_trapezios_double]
  rw [somaLoopDouble_exit _ _ _ (-10) 1 _ (by decide), somaLoopDouble_exit _ _ _ 1 1 _ le_rfl,
    somaLoopDouble_exit _ _ _ 1 1 _ le_rfl, somaLoopDouble_exit _ _ _ (-4) 1 _ (by decide)]
  decide

end CNumerico
